import Mathlib

/-!
Verification of the label-stabilizer core of
`mediapipe/calculators/util/angles_to_detection_calculator.cc`
(class `AnglesToDetectionCalculator`, method `mostFrequent` and the
guard in `Process`).

The embedding follows the C++ source line by line:
* `Obs` is `inValues_t` (a label with a confidence score);
* `State` holds the member fields `inferenceQueue` and
  `startingGestureTime`;
* `trackInsert`/`scanStep`/`aggregate` are the vote loop over
  `trackInferences` and `highestOccurrence` (lines 180-209);
* `timedOut`/`postClearQueue` are the time-out clearing (lines 166-174);
* `mostFrequent` is the whole method, `update` adds the
  `queue_size() > 1` guard from `Process` (lines 121-122).

Scores and timestamps are modelled as rationals; the C++ `int32`
counters are modelled as `Nat` (they only ever count entries of the
queue, whose length is below `queue_size`, so no overflow can occur).
-/

namespace HandGesture

/-- One classification result, mirroring `inValues_t` (`score_`, `label_`). -/
structure Obs where
  label : Int
  score : ℚ
  deriving DecidableEq, Repr

/-- The recognized calculator options: `queue_size` and the optional
`queue_time_out_s`. -/
structure Options where
  queue_size : Nat
  queue_time_out_s : Option ℚ
  deriving DecidableEq, Repr

/-- The mutable per-node state: the member fields `inferenceQueue` and
`startingGestureTime` of `AnglesToDetectionCalculator`. -/
structure State where
  inferenceQueue : List Obs
  startingGestureTime : ℚ
  deriving DecidableEq, Repr

/-- Per-label accumulator, mirroring `struct attr { sumScores; counts; }`. -/
structure Attr where
  sumScores : ℚ
  counts : Nat
  deriving DecidableEq, Repr

/-- The running record, mirroring `struct highestOccurrence_t { label; count; }`. -/
structure HighestOccurrence where
  label : Int
  count : Nat
  deriving DecidableEq, Repr

/-- One map update of `trackInferences`: insert the label with count 1 and
the score as sum if absent, otherwise bump the count and add the score
(lines 183-192 of the source). -/
def trackInsert (track : Int → Option Attr) (c : Obs) : Int → Option Attr :=
  fun l =>
    if l = c.label then
      match track c.label with
      | none => some ⟨c.score, 1⟩
      | some a => some ⟨a.sumScores + c.score, a.counts + 1⟩
    else track l

/-- One iteration of the vote loop: update `trackInferences` for the current
entry, then take over `highestOccurrence` exactly when the entry's new count
strictly exceeds the record (lines 183-197 of the source). -/
def scanStep (acc : (Int → Option Attr) × HighestOccurrence) (c : Obs) :
    (Int → Option Attr) × HighestOccurrence :=
  if acc.2.count < (Option.getD (trackInsert acc.1 c c.label) ⟨0, 0⟩).counts then
    (trackInsert acc.1 c,
      ⟨c.label, (Option.getD (trackInsert acc.1 c c.label) ⟨0, 0⟩).counts⟩)
  else
    (trackInsert acc.1 c, acc.2)

/-- The initial accumulator: an empty `trackInferences` map and the
zero-initialized `highestOccurrence = {}`. -/
def initAcc : (Int → Option Attr) × HighestOccurrence :=
  (fun _ => none, ⟨0, 0⟩)

/-- The whole aggregation pass (lines 180-209): fold the vote loop over the
window and return the record label together with its summed score divided by
the record count. -/
def aggregate (w : List Obs) : Obs :=
  ⟨((w.foldl scanStep initAcc).2).label,
    (Option.getD ((w.foldl scanStep initAcc).1 ((w.foldl scanStep initAcc).2).label)
        ⟨0, 0⟩).sumScores / (((w.foldl scanStep initAcc).2).count : ℚ)⟩

/-- The time-out condition of lines 168-170: a time-out is configured, the
stored `startingGestureTime` is truthy (non-zero), and the timestamp gap is
at least the configured time-out. -/
def timedOut (opts : Options) (sgt t : ℚ) : Bool :=
  match opts.queue_time_out_s with
  | none => false
  | some T => decide (sgt ≠ 0) && decide (T ≤ t - sgt)

/-- The queue right after the append of line 166 and the conditional clear of
lines 168-173: the new observation is appended first, and the clear (when it
fires) empties the queue, discarding the appended observation as well. -/
def postClearQueue (opts : Options) (st : State) (cur : Obs) (t : ℚ) : List Obs :=
  if timedOut opts st.startingGestureTime t then [] else st.inferenceQueue ++ [cur]

/-- The window the vote loop iterates over: the post-clear queue with its
front entry erased (line 178). -/
def votedWindow (opts : Options) (st : State) (cur : Obs) (t : ℚ) : List Obs :=
  (postClearQueue opts st cur t).tail

/-- The method `mostFrequent` (lines 150-213): append, conditionally clear,
record the timestamp, and if the queue has reached `queue_size`, erase the
front entry and aggregate; otherwise leave the observation unchanged. -/
def mostFrequent (opts : Options) (st : State) (cur : Obs) (t : ℚ) : Obs × State :=
  if opts.queue_size ≤ (postClearQueue opts st cur t).length then
    (aggregate (postClearQueue opts st cur t).tail,
      ⟨(postClearQueue opts st cur t).tail, t⟩)
  else
    (cur, ⟨postClearQueue opts st cur t, t⟩)

/-- One call of the stabilizer: `Process` calls `mostFrequent` only when
`queue_size() > 1` (lines 121-122); otherwise the observation passes through
and no state is touched. -/
def update (opts : Options) (st : State) (cur : Obs) (t : ℚ) : Obs × State :=
  if 1 < opts.queue_size then mostFrequent opts st cur t else (cur, st)

/-- The state at construction: empty queue and a zero (unset sentinel)
`startingGestureTime`. -/
def initialState : State :=
  ⟨[], 0⟩

/-- Run a sequence of `update` calls, collecting the outputs and the final
state. -/
def runUpdates (opts : Options) : State → List (Obs × ℚ) → List Obs × State
  | st, [] => ([], st)
  | st, (cur, t) :: rest =>
    (((update opts st cur t).1 :: (runUpdates opts (update opts st cur t).2 rest).1),
      (runUpdates opts (update opts st cur t).2 rest).2)

/-- A state is reachable when some input sequence drives the freshly
constructed stabilizer to it. -/
def Reachable (opts : Options) (st : State) : Prop :=
  ∃ inputs : List (Obs × ℚ), (runUpdates opts initialState inputs).2 = st

/-- Number of entries of the window carrying the given label. -/
def countIn (w : List Obs) (l : Int) : Nat :=
  w.countP (fun o => o.label == l)

/-- Sum of the scores of the entries of the window carrying the given label. -/
def sumIn (w : List Obs) (l : Int) : ℚ :=
  ((w.filter (fun o => o.label == l)).map Obs.score).sum

/-! ### Basic counting lemmas -/

lemma countIn_nil (l : Int) : countIn [] l = 0 := rfl

lemma countIn_concat (p : List Obs) (c : Obs) (l : Int) :
    countIn (p ++ [c]) l = countIn p l + (if c.label = l then 1 else 0) := by
  simp [countIn, List.countP_append, List.countP_cons]

lemma sumIn_concat (p : List Obs) (c : Obs) (l : Int) :
    sumIn (p ++ [c]) l = sumIn p l + (if c.label = l then c.score else 0) := by
  simp only [sumIn, List.filter_append]
  by_cases h : c.label = l
  · simp [h]
  · simp [h]

lemma sumIn_eq_zero (w : List Obs) (l : Int) (h : countIn w l = 0) :
    sumIn w l = 0 := by
  have hf : w.filter (fun o => o.label == l) = [] := by
    rw [List.filter_eq_nil_iff]
    intro a ha
    have := List.countP_eq_zero.mp h a ha
    simpa using this
  simp [sumIn, hf]

lemma countIn_take_le (w : List Obs) (j : Nat) (l : Int) :
    countIn (w.take j) l ≤ countIn w l :=
  List.Sublist.countP_le _ (List.take_sublist j w)

/-! ### The vote-loop fold invariants -/

lemma foldl_scanStep_concat (p : List Obs) (c : Obs) :
    ((p ++ [c]).foldl scanStep initAcc) = scanStep (p.foldl scanStep initAcc) c := by
  simp [List.foldl_append]

lemma scanStep_fst (acc : (Int → Option Attr) × HighestOccurrence) (c : Obs) :
    (scanStep acc c).1 = trackInsert acc.1 c := by
  unfold scanStep
  split <;> rfl

lemma scanStep_snd (acc : (Int → Option Attr) × HighestOccurrence) (c : Obs) :
    (scanStep acc c).2 =
      if acc.2.count < (Option.getD (trackInsert acc.1 c c.label) ⟨0, 0⟩).counts then
        ⟨c.label, (Option.getD (trackInsert acc.1 c c.label) ⟨0, 0⟩).counts⟩
      else acc.2 := by
  unfold scanStep
  split <;> simp_all

/-- After folding the vote loop over a window, the `trackInferences` map holds
exactly the per-label count and score sum of that window. -/
lemma track_eq (w : List Obs) :
    ∀ l : Int, ((w.foldl scanStep initAcc).1) l =
      if countIn w l = 0 then none else some ⟨sumIn w l, countIn w l⟩ := by
  induction w using List.reverseRecOn with
  | nil =>
    intro l
    simp [initAcc, countIn_nil]
  | append_singleton p c ih =>
    intro l
    rw [foldl_scanStep_concat, scanStep_fst]
    by_cases hl : l = c.label
    · subst hl
      rw [countIn_concat, sumIn_concat]
      simp only [if_pos rfl]
      unfold trackInsert
      simp only [if_pos rfl, ih]
      by_cases h0 : countIn p c.label = 0
      · have hs := sumIn_eq_zero p c.label h0
        simp [h0, hs]
      · simp [h0]
    · rw [countIn_concat, sumIn_concat]
      have hne : c.label ≠ l := fun h => hl h.symm
      simp only [if_neg hne, Nat.add_zero, add_zero]
      unfold trackInsert
      simp only [if_neg hl]
      exact ih l

/-- The new count of the freshly inserted entry's label. -/
lemma trackInsert_self (p : List Obs) (c : Obs) :
    trackInsert ((p.foldl scanStep initAcc).1) c c.label =
      some ⟨sumIn p c.label + c.score, countIn p c.label + 1⟩ := by
  unfold trackInsert
  simp only [if_pos rfl, track_eq p c.label]
  by_cases h0 : countIn p c.label = 0
  · have hs := sumIn_eq_zero p c.label h0
    simp [h0, hs]
  · simp [h0]

/-- The record after the fold: it bounds every label's count, and on a
nonempty window it is attained by the record label and is at least one. -/
lemma ho_spec (w : List Obs) :
    (∀ l : Int, countIn w l ≤ ((w.foldl scanStep initAcc).2).count) ∧
      (w ≠ [] → 1 ≤ ((w.foldl scanStep initAcc).2).count ∧
        countIn w ((w.foldl scanStep initAcc).2).label =
          ((w.foldl scanStep initAcc).2).count) := by
  induction w using List.reverseRecOn with
  | nil =>
    refine ⟨fun l => ?_, fun h => absurd rfl h⟩
    simp [initAcc, countIn_nil]
  | append_singleton p c ih =>
    rw [foldl_scanStep_concat, scanStep_snd, trackInsert_self]
    simp only [Option.getD_some]
    set ho := ((p.foldl scanStep initAcc).2) with hho
    by_cases hlt : ho.count < countIn p c.label + 1
    · rw [if_pos hlt]
      dsimp only
      refine ⟨fun l => ?_, fun _ => ⟨by omega, ?_⟩⟩
      · rw [countIn_concat]
        by_cases hl : c.label = l
        · subst hl
          simp only [if_pos]
          have := ih.1 c.label
          omega
        · have := ih.1 l
          simp only [if_neg hl]
          omega
      · rw [countIn_concat]
        simp
    · rw [if_neg hlt]
      have hge : countIn p c.label + 1 ≤ ho.count := by omega
      have hp : p ≠ [] := by
        intro h
        subst h
        simp [initAcc, countIn_nil, hho] at hge
      obtain ⟨h1, hattain⟩ := ih.2 hp
      refine ⟨fun l => ?_, fun _ => ⟨h1, ?_⟩⟩
      · rw [countIn_concat]
        by_cases hl : c.label = l
        · subst hl
          simp only [if_pos]
          omega
        · have := ih.1 l
          simp only [if_neg hl]
          omega
      · rw [countIn_concat]
        by_cases hl : c.label = ho.label
        · exfalso
          rw [hl] at hge
          omega
        · simp only [if_neg hl]
          omega

/-- The record label is the first label whose running count reaches the final
record value: at some cut `k` the record label already has the full record
count, while strictly before `k` every label's count is still below it. -/
lemma ho_first (w : List Obs) (hw : w ≠ []) :
    ∃ k, k ≤ w.length ∧
      countIn (w.take k) ((w.foldl scanStep initAcc).2).label =
        ((w.foldl scanStep initAcc).2).count ∧
      ∀ j, j < k → ∀ l : Int,
        countIn (w.take j) l < ((w.foldl scanStep initAcc).2).count := by
  induction w using List.reverseRecOn with
  | nil => exact absurd rfl hw
  | append_singleton p c ih =>
    rw [foldl_scanStep_concat, scanStep_snd, trackInsert_self]
    simp only [Option.getD_some]
    set ho := ((p.foldl scanStep initAcc).2) with hho
    by_cases hlt : ho.count < countIn p c.label + 1
    · rw [if_pos hlt]
      refine ⟨p.length + 1, by simp, ?_, ?_⟩
      · have hlen : p.length + 1 = (p ++ [c]).length := by simp
        rw [hlen, List.take_length, countIn_concat]
        simp
      · intro j hj l
        have hj2 : j ≤ p.length := by omega
        rw [List.take_append_of_le_length hj2]
        have h1 := countIn_take_le p j l
        have h2 := (ho_spec p).1 l
        rw [← hho] at h2
        simp only
        omega
    · rw [if_neg hlt]
      have hge : countIn p c.label + 1 ≤ ho.count := by omega
      have hp : p ≠ [] := by
        intro h
        subst h
        simp [initAcc, countIn_nil, hho] at hge
      obtain ⟨k, hk, hcnt, hmin⟩ := ih hp
      refine ⟨k, by simp; omega, ?_, ?_⟩
      · rw [List.take_append_of_le_length hk]
        exact hcnt
      · intro j hj l
        have hj2 : j ≤ p.length := by omega
        rw [List.take_append_of_le_length hj2]
        exact hmin j hj l

/-! ### Properties of `aggregate` -/

lemma aggregate_label (w : List Obs) :
    (aggregate w).label = ((w.foldl scanStep initAcc).2).label := rfl

/-- On a nonempty window the winning label's count is maximal. -/
lemma aggregate_label_max (w : List Obs) (hw : w ≠ []) (l : Int) :
    countIn w l ≤ countIn w (aggregate w).label := by
  have h1 := (ho_spec w).1 l
  have h2 := ((ho_spec w).2 hw).2
  rw [aggregate_label, h2]
  exact h1

/-- On a nonempty window the returned score is the mean of the winning
label's scores. -/
lemma aggregate_score_mean (w : List Obs) (hw : w ≠ []) :
    (aggregate w).score =
      sumIn w (aggregate w).label / (countIn w (aggregate w).label : ℚ) := by
  obtain ⟨h1, h2⟩ := (ho_spec w).2 hw
  have hne : countIn w ((w.foldl scanStep initAcc).2).label ≠ 0 := by omega
  show (Option.getD ((w.foldl scanStep initAcc).1 ((w.foldl scanStep initAcc).2).label)
      ⟨0, 0⟩).sumScores / (((w.foldl scanStep initAcc).2).count : ℚ) = _
  rw [track_eq w ((w.foldl scanStep initAcc).2).label, if_neg hne]
  rw [aggregate_label, h2]
  simp

/-! ### Properties of `update` and `runUpdates` -/

/-- When the stabilizer is enabled and the post-clear queue has reached
`queue_size`, the call aggregates over the tail of the post-clear queue and
stores that tail back. -/
lemma update_agg (opts : Options) (st : State) (cur : Obs) (t : ℚ)
    (hqs : 1 < opts.queue_size)
    (hfull : opts.queue_size ≤ (postClearQueue opts st cur t).length) :
    (update opts st cur t).1 = aggregate (votedWindow opts st cur t) ∧
      (update opts st cur t).2 = ⟨votedWindow opts st cur t, t⟩ := by
  unfold update mostFrequent votedWindow
  rw [if_pos hqs, if_pos hfull]
  exact ⟨rfl, rfl⟩

/-- When the stabilizer is enabled and the post-clear queue is still below
`queue_size`, the call passes the observation through and stores the
post-clear queue. -/
lemma update_below (opts : Options) (st : State) (cur : Obs) (t : ℚ)
    (hqs : 1 < opts.queue_size)
    (hlow : (postClearQueue opts st cur t).length < opts.queue_size) :
    (update opts st cur t).1 = cur ∧
      (update opts st cur t).2 = ⟨postClearQueue opts st cur t, t⟩ := by
  unfold update mostFrequent
  rw [if_pos hqs, if_neg (by omega)]
  exact ⟨rfl, rfl⟩

lemma postClearQueue_length (opts : Options) (st : State) (cur : Obs) (t : ℚ) :
    (postClearQueue opts st cur t).length = 0 ∨
      (postClearQueue opts st cur t).length = st.inferenceQueue.length + 1 := by
  unfold postClearQueue
  split
  · left
    rfl
  · right
    simp

/-- One call keeps the window length either zero or strictly below
`queue_size` whenever it was so before. -/
lemma update_len_inv (opts : Options) (st : State) (cur : Obs) (t : ℚ)
    (h : st.inferenceQueue.length = 0 ∨
      st.inferenceQueue.length + 1 ≤ opts.queue_size) :
    ((update opts st cur t).2).inferenceQueue.length = 0 ∨
      ((update opts st cur t).2).inferenceQueue.length + 1 ≤ opts.queue_size := by
  by_cases hqs : 1 < opts.queue_size
  · have hpc := postClearQueue_length opts st cur t
    by_cases hfull : opts.queue_size ≤ (postClearQueue opts st cur t).length
    · have hupd := (update_agg opts st cur t hqs hfull).2
      rw [hupd]
      right
      have htail : (votedWindow opts st cur t).length =
          (postClearQueue opts st cur t).length - 1 := by
        unfold votedWindow
        exact List.length_tail _
      dsimp only
      rw [htail]
      omega
    · have hupd := (update_below opts st cur t hqs (by omega)).2
      rw [hupd]
      simp only
      omega
  · unfold update
    rw [if_neg hqs]
    exact h

/-- Running any input sequence keeps the window length either zero or
strictly below `queue_size`. -/
lemma runUpdates_len_inv (opts : Options) (inputs : List (Obs × ℚ)) :
    ∀ st : State,
      (st.inferenceQueue.length = 0 ∨
        st.inferenceQueue.length + 1 ≤ opts.queue_size) →
      (((runUpdates opts st inputs).2).inferenceQueue.length = 0 ∨
        ((runUpdates opts st inputs).2).inferenceQueue.length + 1 ≤
          opts.queue_size) := by
  induction inputs with
  | nil =>
    intro st h
    exact h
  | cons hd tl ih =>
    intro st h
    obtain ⟨cur, t⟩ := hd
    exact ih _ (update_len_inv opts st cur t h)

/-- Every reachable state has window length zero or strictly below
`queue_size`. -/
lemma reachable_len (opts : Options) (st : State) (h : Reachable opts st) :
    st.inferenceQueue.length = 0 ∨
      st.inferenceQueue.length + 1 ≤ opts.queue_size := by
  obtain ⟨inputs, hi⟩ := h
  rw [← hi]
  exact runUpdates_len_inv opts inputs initialState (Or.inl rfl)

/-- While the total number of observations seen stays below `queue_size`,
every call is a passthrough and the window length stays bounded by the
number of observations seen. -/
lemma runUpdates_short (opts : Options) (inputs : List (Obs × ℚ)) :
    ∀ st : State,
      st.inferenceQueue.length + inputs.length < opts.queue_size →
      (runUpdates opts st inputs).1 = inputs.map Prod.fst ∧
        ((runUpdates opts st inputs).2).inferenceQueue.length ≤
          st.inferenceQueue.length + inputs.length := by
  induction inputs with
  | nil =>
    intro st h
    exact ⟨rfl, Nat.le_refl _⟩
  | cons hd tl ih =>
    intro st h
    obtain ⟨cur, t⟩ := hd
    simp only [List.length_cons] at h
    have hqs : 1 < opts.queue_size := by omega
    have hpc := postClearQueue_length opts st cur t
    have hlow : (postClearQueue opts st cur t).length < opts.queue_size := by
      omega
    obtain ⟨hout, hst⟩ := update_below opts st cur t hqs hlow
    have hnext :
        ((update opts st cur t).2).inferenceQueue.length + tl.length <
          opts.queue_size := by
      rw [hst]
      dsimp only
      omega
    obtain ⟨ho1, ho2⟩ := ih ((update opts st cur t).2) hnext
    refine ⟨?_, ?_⟩
    · show (update opts st cur t).1 :: (runUpdates opts (update opts st cur t).2 tl).1 =
        cur :: tl.map Prod.fst
      rw [hout, ho1]
    · show ((runUpdates opts (update opts st cur t).2 tl).2).inferenceQueue.length ≤
        st.inferenceQueue.length + ((cur, t) :: tl).length
      rw [List.length_cons, hst]
      rw [hst] at ho2
      dsimp only at ho2
      omega

lemma countIn_cons (c : Obs) (w : List Obs) (l : Int) :
    countIn (c :: w) l = countIn w l + (if c.label = l then 1 else 0) := by
  simp [countIn, List.countP_cons]

lemma timedOut_iff (opts : Options) (sgt t : ℚ) :
    timedOut opts sgt t = true ↔
      ∃ T, opts.queue_time_out_s = some T ∧ sgt ≠ 0 ∧ T ≤ t - sgt := by
  unfold timedOut
  cases h : opts.queue_time_out_s with
  | none => simp [h]
  | some T => simp [h, and_assoc]

lemma postClearQueue_nil_iff (opts : Options) (st : State) (cur : Obs) (t : ℚ) :
    postClearQueue opts st cur t = [] ↔
      timedOut opts st.startingGestureTime t = true := by
  unfold postClearQueue
  by_cases h : timedOut opts st.startingGestureTime t = true
  · rw [if_pos h]
    simp [h]
  · rw [if_neg h]
    simp [h]

/-- When the stabilizer is enabled and the post-clear queue has reached
`queue_size`, the voted window is nonempty. -/
lemma votedWindow_ne_nil (opts : Options) (st : State) (cur : Obs) (t : ℚ)
    (hqs : 1 < opts.queue_size)
    (hfull : opts.queue_size ≤ (postClearQueue opts st cur t).length) :
    votedWindow opts st cur t ≠ [] := by
  have hlen : (votedWindow opts st cur t).length =
      (postClearQueue opts st cur t).length - 1 := List.length_tail _
  intro hnil
  rw [hnil] at hlen
  simp only [List.length_nil] at hlen
  omega

/-! ### The claims -/

/-- The configuration of the spec's worked example: `queue_size = 3`, no
time-out. -/
def exOptions : Options :=
  ⟨3, none⟩

/-- The four observations of the spec's worked example, at timestamps
0, 1, 2, 3. -/
def exInputs : List (Obs × ℚ) :=
  [(⟨1, 1/2⟩, 0), (⟨1, 7/10⟩, 1), (⟨2, 9/10⟩, 2), (⟨1, 3/5⟩, 3)]

/-- Claim C1, counterexample: with `queue_size = 3` and no time-out, the four
observations (1,0.5), (1,0.7), (2,0.9), (1,0.6) at timestamps 0..3 do NOT
produce the outputs (1,0.5), (1,0.7), (1,0.6), (1,0.65) that the claim
states: the code evicts the oldest entry before the vote, so the third call
votes over [(1,0.7),(2,0.9)] and returns (1,0.7), not (1,0.6). -/
theorem specExample_outputs_ne :
    (runUpdates exOptions initialState exInputs).1 ≠
      [⟨1, 1/2⟩, ⟨1, 7/10⟩, ⟨1, 3/5⟩, ⟨1, 13/20⟩] := by
  norm_num [runUpdates, update, mostFrequent, postClearQueue, timedOut,
    aggregate, scanStep, trackInsert, initAcc, exOptions, exInputs, initialState]

/-- Claim C1, amended: with `queue_size = 3` and no time-out, the four
observations (1,0.5), (1,0.7), (2,0.9), (1,0.6) at timestamps 0..3 produce
exactly the outputs (1,0.5), (1,0.7), (1,0.7), (2,0.9): each full-window call
evicts the oldest entry before the vote, so call 3 votes over
[(1,0.7),(2,0.9)] (label 1 first reaches the tied count, mean 0.7) and call 4
votes over [(2,0.9),(1,0.6)] (label 2 first reaches the tied count,
score 0.9). -/
theorem specExample_outputs_eq :
    (runUpdates exOptions initialState exInputs).1 =
      [⟨1, 1/2⟩, ⟨1, 7/10⟩, ⟨1, 7/10⟩, ⟨2, 9/10⟩] := by
  norm_num [runUpdates, update, mostFrequent, postClearQueue, timedOut,
    aggregate, scanStep, trackInsert, initAcc, exOptions, exInputs, initialState]

/-- Claim C2: on every enabled update call on which the time-out fires (a
time-out is configured, a previous timestamp was recorded, and the gap is at
least `queue_time_out_s`), the window is cleared after the current
observation has already been appended: the post-clear queue is empty, the
call returns the raw input observation, and the stored window is empty. -/
theorem timeout_discards_appended (opts : Options) (st : State) (cur : Obs)
    (t T : ℚ) (hqs : 1 < opts.queue_size)
    (hcfg : opts.queue_time_out_s = some T)
    (hseen : st.startingGestureTime ≠ 0)
    (hgap : T ≤ t - st.startingGestureTime) :
    postClearQueue opts st cur t = [] ∧
      (update opts st cur t).1 = cur ∧
      ((update opts st cur t).2).inferenceQueue = [] := by
  have hpc : postClearQueue opts st cur t = [] := by
    rw [postClearQueue_nil_iff, timedOut_iff]
    exact ⟨T, hcfg, hseen, hgap⟩
  have hlow : (postClearQueue opts st cur t).length < opts.queue_size := by
    rw [hpc]
    simp only [List.length_nil]
    omega
  obtain ⟨h1, h2⟩ := update_below opts st cur t hqs hlow
  refine ⟨hpc, h1, ?_⟩
  rw [h2]
  exact hpc

/-- Claim C2, witness. -/
theorem timeout_discards_appended_witness :
    (1 < (⟨2, some 5⟩ : Options).queue_size ∧
      (⟨2, some 5⟩ : Options).queue_time_out_s = some 5 ∧
      (⟨[⟨1, 1/2⟩], 1⟩ : State).startingGestureTime ≠ 0 ∧
      (5 : ℚ) ≤ 7 - (⟨[⟨1, 1/2⟩], 1⟩ : State).startingGestureTime) ∧
    (postClearQueue ⟨2, some 5⟩ ⟨[⟨1, 1/2⟩], 1⟩ ⟨2, 1/3⟩ 7 = [] ∧
      (update ⟨2, some 5⟩ ⟨[⟨1, 1/2⟩], 1⟩ ⟨2, 1/3⟩ 7).1 = ⟨2, 1/3⟩ ∧
      ((update ⟨2, some 5⟩ ⟨[⟨1, 1/2⟩], 1⟩ ⟨2, 1/3⟩ 7).2).inferenceQueue = []) :=
  ⟨⟨by decide, rfl, by norm_num, by norm_num⟩,
    timeout_discards_appended ⟨2, some 5⟩ ⟨[⟨1, 1/2⟩], 1⟩ ⟨2, 1/3⟩ 7 5
      (by decide) rfl (by norm_num) (by norm_num)⟩

/-- Claim C3: with `queue_size > 1`, the time-out reset (the clear that
empties the just-appended queue) fires on an update call precisely when a
time-out is configured, `startingGestureTime` differs from the zero sentinel,
and the timestamp gap is at least `queue_time_out_s`; consequently, on the
freshly constructed state (whose `startingGestureTime` is the zero sentinel)
the reset never fires, whatever the configuration and timestamp. -/
theorem timeout_fire_iff (opts : Options) (st : State) (cur : Obs) (t : ℚ)
    (hqs : 1 < opts.queue_size) :
    (postClearQueue opts st cur t = [] ↔
      ∃ T, opts.queue_time_out_s = some T ∧ st.startingGestureTime ≠ 0 ∧
        T ≤ t - st.startingGestureTime) ∧
    postClearQueue opts initialState cur t ≠ [] := by
  constructor
  · rw [postClearQueue_nil_iff, timedOut_iff]
  · rw [Ne, postClearQueue_nil_iff, timedOut_iff]
    rintro ⟨T, hT, h0, hg⟩
    exact h0 rfl

/-- Claim C3, witness. -/
theorem timeout_fire_iff_witness :
    1 < (⟨2, some 5⟩ : Options).queue_size ∧
    ((postClearQueue ⟨2, some 5⟩ ⟨[], 3⟩ ⟨1, 1/2⟩ 9 = [] ↔
      ∃ T, (⟨2, some 5⟩ : Options).queue_time_out_s = some T ∧
        (⟨[], 3⟩ : State).startingGestureTime ≠ 0 ∧
        T ≤ 9 - (⟨[], 3⟩ : State).startingGestureTime) ∧
      postClearQueue ⟨2, some 5⟩ initialState ⟨1, 1/2⟩ 9 ≠ []) :=
  ⟨by decide, timeout_fire_iff ⟨2, some 5⟩ ⟨[], 3⟩ ⟨1, 1/2⟩ 9 (by decide)⟩

/-- Claim C8: with `queue_size ≤ 1` the call is a pure passthrough: the
returned observation is the input and the state (window and
`startingGestureTime`) is returned untouched. -/
theorem small_queue_passthrough (opts : Options) (st : State) (cur : Obs)
    (t : ℚ) (hqs : opts.queue_size ≤ 1) :
    update opts st cur t = (cur, st) := by
  unfold update
  rw [if_neg (by omega)]

/-- Claim C8, witness. -/
theorem small_queue_passthrough_witness :
    (⟨1, some 2⟩ : Options).queue_size ≤ 1 ∧
      update ⟨1, some 2⟩ ⟨[⟨3, 1/4⟩], 5⟩ ⟨2, 1/2⟩ 9 = (⟨2, 1/2⟩, ⟨[⟨3, 1/4⟩], 5⟩) :=
  ⟨by decide, small_queue_passthrough ⟨1, some 2⟩ ⟨[⟨3, 1/4⟩], 5⟩ ⟨2, 1/2⟩ 9 (by decide)⟩

/-- Claim C9: for every configuration and every input sequence, the window
length after the run never exceeds `queue_size`; since the input sequence is
arbitrary, this bounds the window after every individual call. -/
theorem window_le_queue_size (opts : Options) (inputs : List (Obs × ℚ)) :
    ((runUpdates opts initialState inputs).2).inferenceQueue.length ≤
      opts.queue_size := by
  have h := runUpdates_len_inv opts inputs initialState (Or.inl rfl)
  omega

/-- Claim C4: on every enabled update call on which aggregation runs (the
post-clear queue has reached `queue_size`), if one label strictly outnumbers
every other label in the window over which the vote is taken, that label is
the label returned by the call. -/
theorem strict_majority_wins (opts : Options) (st : State) (cur : Obs) (t : ℚ)
    (l : Int) (hqs : 1 < opts.queue_size)
    (hfull : opts.queue_size ≤ (postClearQueue opts st cur t).length)
    (hmaj : ∀ m : Int, m ≠ l →
      countIn (votedWindow opts st cur t) m <
        countIn (votedWindow opts st cur t) l) :
    ((update opts st cur t).1).label = l := by
  rw [(update_agg opts st cur t hqs hfull).1]
  have hw := votedWindow_ne_nil opts st cur t hqs hfull
  by_contra hne
  have h1 := aggregate_label_max (votedWindow opts st cur t) hw l
  have h2 := hmaj _ hne
  omega

/-- The strict-majority hypothesis of the C4 witness: in the voted window
[(1,3/5),(1,7/10),(2,9/10)], label 1 strictly outnumbers every other. -/
lemma exMajority : ∀ m : Int, m ≠ 1 →
    countIn (votedWindow ⟨4, none⟩ ⟨[⟨1, 1/2⟩, ⟨1, 3/5⟩, ⟨1, 7/10⟩], 2⟩ ⟨2, 9/10⟩ 3) m <
      countIn (votedWindow ⟨4, none⟩ ⟨[⟨1, 1/2⟩, ⟨1, 3/5⟩, ⟨1, 7/10⟩], 2⟩ ⟨2, 9/10⟩ 3) 1 := by
  intro m hm
  have hv : votedWindow ⟨4, none⟩ ⟨[⟨1, 1/2⟩, ⟨1, 3/5⟩, ⟨1, 7/10⟩], 2⟩ ⟨2, 9/10⟩ 3 =
      [⟨1, 3/5⟩, ⟨1, 7/10⟩, ⟨2, 9/10⟩] := rfl
  rw [hv]
  have hm1 : (1 : Int) ≠ m := fun h => hm h.symm
  by_cases hm2 : (2 : Int) = m
  · simp [countIn_cons, countIn_nil, hm1, hm2]
  · simp [countIn_cons, countIn_nil, hm1, hm2]

/-- Claim C4, witness. -/
theorem strict_majority_wins_witness :
    (1 < (⟨4, none⟩ : Options).queue_size ∧
      (⟨4, none⟩ : Options).queue_size ≤
        (postClearQueue ⟨4, none⟩ ⟨[⟨1, 1/2⟩, ⟨1, 3/5⟩, ⟨1, 7/10⟩], 2⟩ ⟨2, 9/10⟩ 3).length ∧
      (∀ m : Int, m ≠ 1 →
        countIn (votedWindow ⟨4, none⟩ ⟨[⟨1, 1/2⟩, ⟨1, 3/5⟩, ⟨1, 7/10⟩], 2⟩ ⟨2, 9/10⟩ 3) m <
          countIn (votedWindow ⟨4, none⟩ ⟨[⟨1, 1/2⟩, ⟨1, 3/5⟩, ⟨1, 7/10⟩], 2⟩ ⟨2, 9/10⟩ 3) 1)) ∧
    ((update ⟨4, none⟩ ⟨[⟨1, 1/2⟩, ⟨1, 3/5⟩, ⟨1, 7/10⟩], 2⟩ ⟨2, 9/10⟩ 3).1).label = 1 :=
  ⟨⟨by decide, by decide, exMajority⟩,
    strict_majority_wins ⟨4, none⟩ ⟨[⟨1, 1/2⟩, ⟨1, 3/5⟩, ⟨1, 7/10⟩], 2⟩ ⟨2, 9/10⟩ 3 1
      (by decide) (by decide) exMajority⟩

/-- Claim C5: on every aggregation pass over a nonempty window, the winning
label's count is maximal, the winner is the label whose running count reaches
that maximal value first during the iteration (at some cut `k` the winner
already has the full final count while strictly before `k` no label has
reached it — so a label already holding the record is never displaced by a
merely equal count), and aggregating the same window twice yields the same
result. -/
theorem tiebreak_first_to_max (w : List Obs) (hw : w ≠ []) :
    (∀ l : Int, countIn w l ≤ countIn w (aggregate w).label) ∧
    (∃ k, k ≤ w.length ∧
      countIn (w.take k) (aggregate w).label = countIn w (aggregate w).label ∧
      ∀ j, j < k → ∀ l : Int,
        countIn (w.take j) l < countIn w (aggregate w).label) ∧
    aggregate w = aggregate w := by
  refine ⟨aggregate_label_max w hw, ?_, rfl⟩
  obtain ⟨h1, h2⟩ := (ho_spec w).2 hw
  obtain ⟨k, hk, hcnt, hmin⟩ := ho_first w hw
  rw [aggregate_label, h2]
  exact ⟨k, hk, hcnt, hmin⟩

/-- The tie window used by the C5 witness: labels 1 and 2 both end with
count 2, and label 1 reaches count 2 first (at the third entry). -/
def exTieWindow : List Obs :=
  [⟨1, 1/2⟩, ⟨2, 9/10⟩, ⟨1, 3/5⟩, ⟨2, 4/5⟩]

/-- Claim C5, witness. -/
theorem tiebreak_first_to_max_witness :
    exTieWindow ≠ [] ∧
    ((∀ l : Int, countIn exTieWindow l ≤ countIn exTieWindow (aggregate exTieWindow).label) ∧
      (∃ k, k ≤ exTieWindow.length ∧
        countIn (exTieWindow.take k) (aggregate exTieWindow).label =
          countIn exTieWindow (aggregate exTieWindow).label ∧
        ∀ j, j < k → ∀ l : Int,
          countIn (exTieWindow.take j) l <
            countIn exTieWindow (aggregate exTieWindow).label) ∧
      aggregate exTieWindow = aggregate exTieWindow) :=
  ⟨by simp [exTieWindow], tiebreak_first_to_max exTieWindow (by simp [exTieWindow])⟩

/-- Claim C6: on every enabled update call on which aggregation runs, the
returned score is the sum of the scores of the returned label's entries in
the voted window divided by that label's count there — the arithmetic mean of
the winning label's scores within that window. -/
theorem winner_score_is_mean (opts : Options) (st : State) (cur : Obs) (t : ℚ)
    (hqs : 1 < opts.queue_size)
    (hfull : opts.queue_size ≤ (postClearQueue opts st cur t).length) :
    ((update opts st cur t).1).score =
      sumIn (votedWindow opts st cur t) (((update opts st cur t).1).label) /
        (countIn (votedWindow opts st cur t) (((update opts st cur t).1).label) : ℚ) := by
  rw [(update_agg opts st cur t hqs hfull).1]
  exact aggregate_score_mean _ (votedWindow_ne_nil opts st cur t hqs hfull)

/-- Claim C6, witness. -/
theorem winner_score_is_mean_witness :
    (1 < (⟨3, none⟩ : Options).queue_size ∧
      (⟨3, none⟩ : Options).queue_size ≤
        (postClearQueue ⟨3, none⟩ ⟨[⟨1, 1/2⟩, ⟨1, 7/10⟩], 1⟩ ⟨2, 9/10⟩ 2).length) ∧
    ((update ⟨3, none⟩ ⟨[⟨1, 1/2⟩, ⟨1, 7/10⟩], 1⟩ ⟨2, 9/10⟩ 2).1).score =
      sumIn (votedWindow ⟨3, none⟩ ⟨[⟨1, 1/2⟩, ⟨1, 7/10⟩], 1⟩ ⟨2, 9/10⟩ 2)
          (((update ⟨3, none⟩ ⟨[⟨1, 1/2⟩, ⟨1, 7/10⟩], 1⟩ ⟨2, 9/10⟩ 2).1).label) /
        (countIn (votedWindow ⟨3, none⟩ ⟨[⟨1, 1/2⟩, ⟨1, 7/10⟩], 1⟩ ⟨2, 9/10⟩ 2)
          (((update ⟨3, none⟩ ⟨[⟨1, 1/2⟩, ⟨1, 7/10⟩], 1⟩ ⟨2, 9/10⟩ 2).1).label) : ℚ) :=
  ⟨⟨by decide, by decide⟩,
    winner_score_is_mean ⟨3, none⟩ ⟨[⟨1, 1/2⟩, ⟨1, 7/10⟩], 1⟩ ⟨2, 9/10⟩ 2
      (by decide) (by decide)⟩

/-- Claim C7: with `queue_size ≥ 2`, every input sequence shorter than
`queue_size` fed to a freshly constructed stabilizer is passed through
unchanged: each call returns its own input observation. -/
theorem below_capacity_passthrough (opts : Options) (inputs : List (Obs × ℚ))
    (hqs : 2 ≤ opts.queue_size) (hlen : inputs.length < opts.queue_size) :
    (runUpdates opts initialState inputs).1 = inputs.map Prod.fst :=
  (runUpdates_short opts inputs initialState
    (by simpa [initialState] using hlen)).1

/-- Claim C7, witness. -/
theorem below_capacity_passthrough_witness :
    (2 ≤ (⟨3, none⟩ : Options).queue_size ∧
      ([(⟨1, 1/2⟩, 0), (⟨2, 9/10⟩, 1)] : List (Obs × ℚ)).length <
        (⟨3, none⟩ : Options).queue_size) ∧
    (runUpdates ⟨3, none⟩ initialState [(⟨1, 1/2⟩, 0), (⟨2, 9/10⟩, 1)]).1 =
      ([(⟨1, 1/2⟩, 0), (⟨2, 9/10⟩, 1)] : List (Obs × ℚ)).map Prod.fst :=
  ⟨⟨by decide, by decide⟩,
    below_capacity_passthrough ⟨3, none⟩ [(⟨1, 1/2⟩, 0), (⟨2, 9/10⟩, 1)]
      (by decide) (by decide)⟩

/-- Claim C10: with `queue_size ≥ 2`, every reachable post-call window is
strictly below capacity (length at most `queue_size - 1`), and on any call
from a reachable state on which aggregation runs, the vote is taken over
exactly `queue_size - 1` entries — the newest ones: the oldest entry of the
stored window is evicted on the very call whose append reaches capacity and
is excluded from the vote, whose result is the call's output. -/
theorem window_below_capacity_agg (opts : Options) (st : State) (cur : Obs)
    (t : ℚ) (hqs : 2 ≤ opts.queue_size) (hreach : Reachable opts st) :
    st.inferenceQueue.length ≤ opts.queue_size - 1 ∧
    (opts.queue_size ≤ (postClearQueue opts st cur t).length →
      (votedWindow opts st cur t).length = opts.queue_size - 1 ∧
      (∃ oldest rest, st.inferenceQueue = oldest :: rest ∧
        votedWindow opts st cur t = rest ++ [cur]) ∧
      (update opts st cur t).1 = aggregate (votedWindow opts st cur t)) := by
  have hinv := reachable_len opts st hreach
  refine ⟨by omega, fun hfull => ?_⟩
  have hq2 : postClearQueue opts st cur t = st.inferenceQueue ++ [cur] := by
    unfold postClearQueue
    by_cases h : timedOut opts st.startingGestureTime t = true
    · exfalso
      have hnil := (postClearQueue_nil_iff opts st cur t).mpr h
      rw [hnil] at hfull
      simp only [List.length_nil] at hfull
      omega
    · rw [if_neg h]
  have hlen : (postClearQueue opts st cur t).length =
      st.inferenceQueue.length + 1 := by
    rw [hq2]
    simp
  have hvlen : (votedWindow opts st cur t).length =
      (postClearQueue opts st cur t).length - 1 := List.length_tail _
  have hql : 1 ≤ st.inferenceQueue.length := by omega
  have hqnempty : st.inferenceQueue ≠ [] := by
    intro h
    rw [h] at hql
    simp at hql
  obtain ⟨oldest, rest, hq⟩ := List.exists_cons_of_ne_nil hqnempty
  refine ⟨by omega, ⟨oldest, rest, hq, ?_⟩,
    (update_agg opts st cur t (by omega) hfull).1⟩
  unfold votedWindow
  rw [hq2, hq]
  simp

/-- Claim C10, witness. -/
theorem window_below_capacity_agg_witness :
    (2 ≤ (⟨2, none⟩ : Options).queue_size ∧
      Reachable ⟨2, none⟩ ⟨[⟨1, 1/2⟩], 0⟩) ∧
    ((⟨[⟨1, 1/2⟩], 0⟩ : State).inferenceQueue.length ≤
        (⟨2, none⟩ : Options).queue_size - 1 ∧
      ((⟨2, none⟩ : Options).queue_size ≤
          (postClearQueue ⟨2, none⟩ ⟨[⟨1, 1/2⟩], 0⟩ ⟨2, 9/10⟩ 1).length →
        (votedWindow ⟨2, none⟩ ⟨[⟨1, 1/2⟩], 0⟩ ⟨2, 9/10⟩ 1).length =
          (⟨2, none⟩ : Options).queue_size - 1 ∧
        (∃ oldest rest,
          (⟨[⟨1, 1/2⟩], 0⟩ : State).inferenceQueue = oldest :: rest ∧
          votedWindow ⟨2, none⟩ ⟨[⟨1, 1/2⟩], 0⟩ ⟨2, 9/10⟩ 1 = rest ++ [⟨2, 9/10⟩]) ∧
        (update ⟨2, none⟩ ⟨[⟨1, 1/2⟩], 0⟩ ⟨2, 9/10⟩ 1).1 =
          aggregate (votedWindow ⟨2, none⟩ ⟨[⟨1, 1/2⟩], 0⟩ ⟨2, 9/10⟩ 1))) :=
  ⟨⟨by decide, ⟨[(⟨1, 1/2⟩, 0)], rfl⟩⟩,
    window_below_capacity_agg ⟨2, none⟩ ⟨[⟨1, 1/2⟩], 0⟩ ⟨2, 9/10⟩ 1
      (by decide) ⟨[(⟨1, 1/2⟩, 0)], rfl⟩⟩

end HandGesture
